import Mathlib

/-!
Verification development for a pipeline of text-token transforms
(whitespace tokenization, outer-punctuation stripping, possessive-suffix
stripping, apostrophe-variant stopword expansion, pipeline composition,
and a streaming token counter).

Strings are modelled as `List Char`; a token carries its text and a
sequence position, with the position sentinel `USIZE_MAX` marking a
token as removed.
-/

/-- The fixed table of 8 Unicode apostrophe code points, in source order:
U+0027, U+2019, U+02BC, U+02BB, U+055A, U+A78B, U+A78C, U+FF07. -/
def APOSTROPHES : List Char :=
  ['\u0027', '’', 'ʼ', 'ʻ', '՚', 'Ꞌ', 'ꞌ', '＇']

/-- Whether a word contains any apostrophe-variant character. -/
def contains_apostrophe (s : List Char) : Bool :=
  s.any (fun c => APOSTROPHES.contains c)

/-- Replace every apostrophe-variant character in a word with a given
replacement character, leaving all other characters unchanged. -/
def replace_apostrophes (s : List Char) (replacement : Char) : List Char :=
  s.map (fun c => if APOSTROPHES.contains c then replacement else c)

/-- Expand a base stopword list: each word containing an apostrophe variant
is replaced in place by one version per apostrophe in the table; other
words pass through unchanged. -/
def expand_stopwords_with_apostrophe_variants : List (List Char) → List (List Char)
  | [] => []
  | word :: rest =>
    (if contains_apostrophe word then
      APOSTROPHES.map (fun apos => replace_apostrophes word apos)
    else
      [word]) ++ expand_stopwords_with_apostrophe_variants rest

/-- Modelled from the spec: the curated base English stopword list lives in a
source file (a compile-time constant table) that is not available here; the
spec records that it is an ordered list of curated stopword strings, some
containing an apostrophe in one canonical form (U+0027), and tests attest
that it contains "the", "a", "don't" and "can't" and does not contain
content words such as "quick", "brown", "fox", "john" or "best".  This
stand-in list is faithful to those attested facts. -/
def STOPWORDS_EN_BASE : List (List Char) :=
  ["a".data, "an".data, "and".data, "are".data, "as".data, "at".data,
   "be".data, "but".data, "by".data, "for".data, "his".data, "in".data,
   "into".data, "is".data, "it".data, "no".data, "not".data, "of".data,
   "on".data, "or".data, "that".data, "the".data, "their".data, "then".data,
   "there".data, "these".data, "they".data, "this".data, "to".data,
   "was".data, "will".data, "with".data,
   ['d', 'o', 'n', '\u0027', 't'], ['c', 'a', 'n', '\u0027', 't']]

/-- The Kapiche English stopword list with apostrophe variants expanded. -/
def get_stopwords_filter_en : List (List Char) :=
  expand_stopwords_with_apostrophe_variants STOPWORDS_EN_BASE

/-- Modelled from the spec: the outer-punctuation filter classifies
characters by "general Unicode punctuation classification"; the classifier
itself lives in a source file not available here.  We model it as the ASCII
punctuation ranges together with the common Unicode quote/ellipsis
punctuation used in this development. -/
def is_punctuation (c : Char) : Bool :=
  (0x21 ≤ c.toNat && c.toNat ≤ 0x2F) ||
  (0x3A ≤ c.toNat && c.toNat ≤ 0x40) ||
  (0x5B ≤ c.toNat && c.toNat ≤ 0x60) ||
  (0x7B ≤ c.toNat && c.toNat ≤ 0x7E) ||
  c == '‘' || c == '’' || c == '“' || c == '”' || c == '…'

/-- Modelled from the spec: leading pass of the outer-punctuation filter.
All leading punctuation characters are removed except: if the very first
character of the original text is a member of the exception set, that
single character is retained and stripping resumes from the next
character. -/
def strip_leading (exceptions : List Char) (s : List Char) : List Char :=
  match s with
  | [] => []
  | c :: rest =>
    if exceptions.contains c then c :: rest.dropWhile is_punctuation
    else List.dropWhile is_punctuation (c :: rest)

/-- Modelled from the spec: trailing pass of the outer-punctuation filter.
All trailing punctuation characters are removed unconditionally. -/
def strip_trailing (s : List Char) : List Char :=
  (s.reverse.dropWhile is_punctuation).reverse

/-- Modelled from the spec: the outer-punctuation filter's text transform —
the leading pass (with exception retention) followed by the unconditional
trailing pass.  The filter source file is not available here; this follows
the contract of the spec word for word. -/
def outer_punct_strip (exceptions : List Char) (s : List Char) : List Char :=
  strip_trailing (strip_leading exceptions s)

/-- Modelled from the spec: the possessive-contraction filter's text
transform.  Its source file is not available here; per the spec, the
trailing suffix pattern is an apostrophe variant immediately followed by
the letter s or S at the absolute end of the token, or a bare trailing
apostrophe with nothing after it; only that one suffix occurrence is
stripped, and a token with no such suffix passes through unchanged. -/
def strip_possessive (s : List Char) : List Char :=
  match s.reverse with
  | [] => s
  | [c] => if APOSTROPHES.contains c then [] else s
  | c :: a :: rest =>
    if APOSTROPHES.contains c then (a :: rest).reverse
    else if (c == 's' || c == 'S') && APOSTROPHES.contains a then rest.reverse
    else s

/-- The sentinel position marking a token as removed (usize::MAX). -/
def USIZE_MAX : Nat := 2 ^ 64 - 1

/-- A token: text content and a sequence position.  Position `USIZE_MAX`
means the token is removed/stopped. -/
structure Token where
  text : List Char
  position : Nat
deriving DecidableEq, Repr

/-- Modelled from the spec: the external whitespace tokenizer splits raw
text into maximal runs of non-whitespace characters. -/
def split_ws : List Char → List Char → List (List Char)
  | [], cur => if cur.isEmpty then [] else [cur.reverse]
  | c :: rest, cur =>
    if c.isWhitespace then
      if cur.isEmpty then split_ws rest [] else cur.reverse :: split_ws rest []
    else split_ws rest (c :: cur)

/-- Modelled from the spec: whitespace tokenization producing tokens in
left-to-right document order with positions 0, 1, 2, …. -/
def whitespace_tokenize (text : List Char) : List Token :=
  (split_ws text []).enum.map (fun p => ⟨p.2, p.1⟩)

/-- Modelled from the spec: the external generic case-folding filter,
lowercasing each token's text. -/
def lower_caser (ts : List Token) : List Token :=
  ts.map (fun t => ⟨t.text.map Char.toLower, t.position⟩)

/-- The outer-punctuation filter as a token-stream transform: it rewrites
each token's text and never drops a token, even when stripping leaves the
text empty. -/
def outer_punctuation_filter (exceptions : List Char) (ts : List Token) : List Token :=
  ts.map (fun t => ⟨outer_punct_strip exceptions t.text, t.position⟩)

/-- The possessive-contraction filter as a token-stream transform. -/
def possessive_contraction_filter (ts : List Token) : List Token :=
  ts.map (fun t => ⟨strip_possessive t.text, t.position⟩)

/-- Modelled from the spec: the external generic stopword-removal filter,
parameterized by a word list; a token whose text is in the list is marked
removed via the reserved sentinel position. -/
def stop_word_filter (words : List (List Char)) (ts : List Token) : List Token :=
  ts.map (fun t => if words.contains t.text then ⟨t.text, USIZE_MAX⟩ else t)

/-- Pipeline 1: whitespace tokenization, outer-punctuation stripping with
exceptions {#, @}, then possessive stripping. -/
def kapiche_analyzer (text : List Char) : List Token :=
  possessive_contraction_filter
    (outer_punctuation_filter ['#', '@']
      (whitespace_tokenize text))

/-- Pipeline 2: as pipeline 1 with case folding inserted immediately after
tokenization. -/
def kapiche_analyzer_lower (text : List Char) : List Token :=
  possessive_contraction_filter
    (outer_punctuation_filter ['#', '@']
      (lower_caser
        (whitespace_tokenize text)))

/-- Pipeline 3: whitespace tokenization, case folding, outer-punctuation
stripping, stopword removal (expanded list), then possessive stripping —
in exactly the chain order of the source. -/
def kapiche_analyzer_lower_with_stopwords (text : List Char) : List Token :=
  possessive_contraction_filter
    (stop_word_filter get_stopwords_filter_en
      (outer_punctuation_filter ['#', '@']
        (lower_caser
          (whitespace_tokenize text))))

/-- The third pipeline as described by the spec's words (for comparison
with the source chain): stopword removal inserted after case folding and
before punctuation stripping, possessive stripping last. -/
def kapiche_analyzer_lower_with_stopwords_spec_order (text : List Char) : List Token :=
  possessive_contraction_filter
    (outer_punctuation_filter ['#', '@']
      (stop_word_filter get_stopwords_filter_en
        (lower_caser
          (whitespace_tokenize text))))

/-- Materialized output of a pipeline: the texts of tokens not marked
removed, in stream order (downstream consumers treat a removed token as
absent). -/
def tokens_of (analyzer : List Char → List Token) (text : List Char) : List (List Char) :=
  ((analyzer text).filter (fun t => t.position != USIZE_MAX)).map Token.text

/-- The streaming loop of count_tokens: advance through the stream once,
incrementing only for tokens whose position is not the sentinel. -/
def count_loop : List Token → Nat → Nat
  | [], count => count
  | t :: rest, count =>
    count_loop rest (if t.position ≠ USIZE_MAX then count + 1 else count)

/-- Count non-stopped tokens in a text under an analyzer, streaming. -/
def count_tokens (analyzer : List Char → List Token) (text : List Char) : Nat :=
  count_loop (analyzer text) 0

/-! ## Helper lemmas -/

theorem expand_append (l1 l2 : List (List Char)) :
    expand_stopwords_with_apostrophe_variants (l1 ++ l2) =
      expand_stopwords_with_apostrophe_variants l1 ++
        expand_stopwords_with_apostrophe_variants l2 := by
  induction l1 with
  | nil => simp [expand_stopwords_with_apostrophe_variants]
  | cons w rest ih =>
    simp [expand_stopwords_with_apostrophe_variants, ih, List.append_assoc]

theorem count_loop_eq (ts : List Token) : ∀ n : Nat,
    count_loop ts n = n + (ts.filter (fun t => t.position != USIZE_MAX)).length := by
  induction ts with
  | nil => intro n; simp [count_loop]
  | cons t rest ih =>
    intro n
    by_cases h : t.position = USIZE_MAX
    · simp [count_loop, h, ih]
    · simp [count_loop, h, ih]
      omega

/-! ## Claims about the stopword expander -/

/-- C2: for every base stopword list, `expand_stopwords_with_apostrophe_variants`
replaces each entry containing an apostrophe-variant character, in place, by
exactly 8 entries — one per apostrophe variant, each formed by substituting
every apostrophe-variant character of the entry with the variant under
construction and leaving all other characters unchanged — and passes every
entry with no apostrophe-variant character through unchanged as a single
entry. -/
theorem expand_stopwords_spec (pre post : List (List Char)) (w : List Char) :
    (contains_apostrophe w = true →
      expand_stopwords_with_apostrophe_variants (pre ++ w :: post) =
        expand_stopwords_with_apostrophe_variants pre ++
          APOSTROPHES.map (fun apos => replace_apostrophes w apos) ++
          expand_stopwords_with_apostrophe_variants post ∧
      (APOSTROPHES.map (fun apos => replace_apostrophes w apos)).length = 8) ∧
    (contains_apostrophe w = false →
      expand_stopwords_with_apostrophe_variants (pre ++ w :: post) =
        expand_stopwords_with_apostrophe_variants pre ++ w ::
          expand_stopwords_with_apostrophe_variants post) ∧
    (∀ (r : Char) (i : Nat),
      (replace_apostrophes w r)[i]? =
        (w[i]?).map (fun c => if APOSTROPHES.contains c then r else c)) := by
  refine ⟨fun h => ⟨?_, ?_⟩, fun h => ?_, fun r i => ?_⟩
  · rw [expand_append]
    simp [expand_stopwords_with_apostrophe_variants, h]
  · simp [APOSTROPHES]
  · rw [expand_append]
    simp [expand_stopwords_with_apostrophe_variants, h]
  · simp [replace_apostrophes, List.getElem?_map]

/-- Witness for C2 at the concrete entries "don't" and "the". -/
theorem expand_stopwords_spec_witness :
    expand_stopwords_with_apostrophe_variants ([] ++ ['d', 'o', 'n', '\u0027', 't'] :: []) =
      expand_stopwords_with_apostrophe_variants [] ++
        APOSTROPHES.map (fun apos => replace_apostrophes ['d', 'o', 'n', '\u0027', 't'] apos) ++
        expand_stopwords_with_apostrophe_variants [] ∧
    expand_stopwords_with_apostrophe_variants ([] ++ "the".data :: []) =
      expand_stopwords_with_apostrophe_variants [] ++ "the".data ::
        expand_stopwords_with_apostrophe_variants [] :=
  ⟨((expand_stopwords_spec [] [] ['d', 'o', 'n', '\u0027', 't']).1 (by decide)).1,
   (expand_stopwords_spec [] [] "the".data).2.1 (by decide)⟩

/-- C7: the expansion preserves the base list's relative order — the output
is the in-order concatenation of each base entry's expansion group — and a
base list with no apostrophe-bearing entries expands to itself, element for
element, in the same order. -/
theorem expand_stopwords_order (base : List (List Char)) :
    expand_stopwords_with_apostrophe_variants base =
      (base.map (fun w =>
        if contains_apostrophe w then
          APOSTROPHES.map (fun apos => replace_apostrophes w apos)
        else [w])).flatten ∧
    ((∀ w ∈ base, contains_apostrophe w = false) →
      expand_stopwords_with_apostrophe_variants base = base) := by
  constructor
  · induction base with
    | nil => simp [expand_stopwords_with_apostrophe_variants]
    | cons w rest ih => simp [expand_stopwords_with_apostrophe_variants, ih]
  · intro h
    induction base with
    | nil => simp [expand_stopwords_with_apostrophe_variants]
    | cons w rest ih =>
      have hw := h w (by simp)
      simp [expand_stopwords_with_apostrophe_variants, hw]
      exact ih (fun x hx => h x (by simp [hx]))

/-- Witness for C7 on a concrete apostrophe-free base list. -/
theorem expand_stopwords_order_witness :
    expand_stopwords_with_apostrophe_variants ["hello".data, "world".data] =
      ["hello".data, "world".data] :=
  (expand_stopwords_order ["hello".data, "world".data]).2 (by decide)

/-- C10: for every apostrophe-bearing base entry, its 8 expanded entries
appear consecutively in the output in the fixed order of the hardcoded
apostrophe table, so the first entry of each group is the U+0027 form and
the second is the U+2019 form; every group uses the same internal order. -/
theorem expand_stopwords_group_order (pre post : List (List Char)) (w : List Char)
    (h : contains_apostrophe w = true) :
    (expand_stopwords_with_apostrophe_variants (pre ++ w :: post)).drop
        (expand_stopwords_with_apostrophe_variants pre).length =
      APOSTROPHES.map (fun apos => replace_apostrophes w apos) ++
        expand_stopwords_with_apostrophe_variants post ∧
    APOSTROPHES.map (fun apos => replace_apostrophes w apos) =
      [replace_apostrophes w '\u0027', replace_apostrophes w '’',
       replace_apostrophes w 'ʼ', replace_apostrophes w 'ʻ',
       replace_apostrophes w '՚', replace_apostrophes w 'Ꞌ',
       replace_apostrophes w 'ꞌ', replace_apostrophes w '＇'] := by
  constructor
  · rw [expand_append]
    have h1 : expand_stopwords_with_apostrophe_variants (w :: post) =
        APOSTROPHES.map (fun apos => replace_apostrophes w apos) ++
          expand_stopwords_with_apostrophe_variants post := by
      simp [expand_stopwords_with_apostrophe_variants, h]
    rw [h1]
    exact List.drop_left _ _
  · rfl

/-- Witness for C10 at the concrete entry "don't". -/
theorem expand_stopwords_group_order_witness :
    (expand_stopwords_with_apostrophe_variants
        ([] ++ ['d', 'o', 'n', '\u0027', 't'] :: [])).drop
        (expand_stopwords_with_apostrophe_variants []).length =
      APOSTROPHES.map (fun apos => replace_apostrophes ['d', 'o', 'n', '\u0027', 't'] apos) ++
        expand_stopwords_with_apostrophe_variants [] :=
  (expand_stopwords_group_order [] [] ['d', 'o', 'n', '\u0027', 't'] (by decide)).1

/-! ## Claims about the token counter and the concrete pipelines -/

/-- C3: `count_tokens` returns exactly the number of tokens in the
analyzer's output stream whose position is not the removed sentinel; it is
a total function over arbitrary input, and on the empty string each of the
repository's analyzers yields 0. -/
theorem count_tokens_spec :
    (∀ (analyzer : List Char → List Token) (text : List Char),
      count_tokens analyzer text =
        ((analyzer text).filter (fun t => t.position != USIZE_MAX)).length) ∧
    count_tokens kapiche_analyzer [] = 0 ∧
    count_tokens kapiche_analyzer_lower [] = 0 ∧
    count_tokens kapiche_analyzer_lower_with_stopwords [] = 0 := by
  refine ⟨fun analyzer text => ?_, by decide, by decide, by decide⟩
  unfold count_tokens
  rw [count_loop_eq]
  simp

/-- C8: the three named pipelines produce exactly the spec's listed token
sequences on its concrete inputs. -/
theorem pipelines_concrete_examples :
    tokens_of kapiche_analyzer
        ("#HashTag @mention test".data ++ ['\u0027'] ++ "s".data) =
      ["#HashTag".data, "@mention".data, "test".data] ∧
    tokens_of kapiche_analyzer_lower
        ("#HashTag @Mention Test".data ++ ['\u0027'] ++ "s".data) =
      ["#hashtag".data, "@mention".data, "test".data] ∧
    tokens_of kapiche_analyzer_lower_with_stopwords
        ("John".data ++ ['\u0027'] ++ "s the best!".data) =
      ["john".data, "best".data] :=
  ⟨by decide, by decide, by decide⟩

/-! ## Helper lemmas about dropWhile and the trailing pass -/

theorem head?_dropWhile_not {α : Type} (p : α → Bool) (l : List α) :
    ∀ c, (l.dropWhile p).head? = some c → p c = false := by
  induction l with
  | nil => intro c h; simp [List.dropWhile] at h
  | cons a rest ih =>
    intro c h
    cases ha : p a with
    | true => rw [List.dropWhile_cons, if_pos ha] at h; exact ih c h
    | false =>
      rw [List.dropWhile_cons, if_neg (by simp [ha])] at h
      have h2 : some a = some c := h
      cases h2
      exact ha

theorem dropWhile_of_head_not {α : Type} (p : α → Bool) (l : List α)
    (h : ∀ c, l.head? = some c → p c = false) :
    l.dropWhile p = l := by
  cases l with
  | nil => rfl
  | cons a rest =>
    rw [List.dropWhile_cons, if_neg (by simp [h a rfl])]

theorem strip_trailing_decomp (l : List Char) :
    ∃ removed, l = strip_trailing l ++ removed ∧
      ∀ c ∈ removed, is_punctuation c = true := by
  refine ⟨(l.reverse.takeWhile is_punctuation).reverse, ?_, ?_⟩
  · unfold strip_trailing
    have h1 : l.reverse.takeWhile is_punctuation ++ l.reverse.dropWhile is_punctuation
        = l.reverse := List.takeWhile_append_dropWhile _ _
    calc l = l.reverse.reverse := (List.reverse_reverse l).symm
    _ = (l.reverse.takeWhile is_punctuation ++ l.reverse.dropWhile is_punctuation).reverse := by
        rw [h1]
    _ = (l.reverse.dropWhile is_punctuation).reverse ++
          (l.reverse.takeWhile is_punctuation).reverse := by
        rw [List.reverse_append]
  · intro c hc
    rw [List.mem_reverse] at hc
    exact List.mem_takeWhile_imp hc

theorem strip_trailing_getLast (l : List Char) :
    ∀ c, (strip_trailing l).getLast? = some c → is_punctuation c = false := by
  intro c h
  unfold strip_trailing at h
  rw [List.getLast?_reverse] at h
  exact head?_dropWhile_not _ _ c h

theorem strip_trailing_of_getLast (l : List Char)
    (h : ∀ c, l.getLast? = some c → is_punctuation c = false) :
    strip_trailing l = l := by
  unfold strip_trailing
  cases hl : l.reverse with
  | nil =>
    have h0 : l = [] := by simpa using congrArg List.reverse hl
    simp [h0]
  | cons c cs =>
    have hc : is_punctuation c = false := by
      apply h
      rw [← List.head?_reverse, hl]
      rfl
    rw [List.dropWhile_cons, if_neg (by simp [hc]), ← hl, List.reverse_reverse]

/-! ## Claims about the outer-punctuation filter -/

/-- C5: for every token text and exception set, the outer-punctuation
filter removes all leading punctuation except that a first character in the
exception set is retained (with stripping resuming from the next
character), removes all trailing punctuation unconditionally, and touches
nothing internal: the surviving text decomposes the input into a removed
punctuation-only prefix, an unchanged middle, and a removed
punctuation-only suffix. -/
theorem outer_punctuation_filter_spec (E : List Char) (s : List Char) :
    (∃ removed, strip_leading E s = outer_punct_strip E s ++ removed ∧
      ∀ c ∈ removed, is_punctuation c = true) ∧
    (∀ c, (outer_punct_strip E s).getLast? = some c → is_punctuation c = false) ∧
    (∀ c rest, s = c :: rest → E.contains c = true →
      strip_leading E s = c :: rest.dropWhile is_punctuation ∧
      rest = rest.takeWhile is_punctuation ++ rest.dropWhile is_punctuation ∧
      (∀ x ∈ rest.takeWhile is_punctuation, is_punctuation x = true) ∧
      (∀ x, (rest.dropWhile is_punctuation).head? = some x → is_punctuation x = false)) ∧
    (∀ c rest, s = c :: rest → E.contains c = false →
      strip_leading E s = s.dropWhile is_punctuation ∧
      s = s.takeWhile is_punctuation ++ strip_leading E s ∧
      (∀ x ∈ s.takeWhile is_punctuation, is_punctuation x = true) ∧
      (∀ x, (strip_leading E s).head? = some x → is_punctuation x = false)) := by
  refine ⟨strip_trailing_decomp (strip_leading E s),
    fun c h => strip_trailing_getLast (strip_leading E s) c h, ?_, ?_⟩
  · intro c rest hs hE
    subst hs
    have h1 : strip_leading E (c :: rest) = c :: rest.dropWhile is_punctuation := by
      show (if E.contains c = true then c :: rest.dropWhile is_punctuation
        else List.dropWhile is_punctuation (c :: rest)) = c :: rest.dropWhile is_punctuation
      rw [if_pos hE]
    refine ⟨h1, (List.takeWhile_append_dropWhile _ _).symm,
      fun x hx => List.mem_takeWhile_imp hx,
      fun x hx => head?_dropWhile_not _ _ x hx⟩
  · intro c rest hs hE
    subst hs
    have h1 : strip_leading E (c :: rest) = (c :: rest).dropWhile is_punctuation := by
      show (if E.contains c = true then c :: rest.dropWhile is_punctuation
        else List.dropWhile is_punctuation (c :: rest)) = (c :: rest).dropWhile is_punctuation
      rw [if_neg (fun hcon => by rw [hE] at hcon; cases hcon)]
    refine ⟨h1, ?_, fun x hx => List.mem_takeWhile_imp hx, ?_⟩
    · rw [h1]
      exact (List.takeWhile_append_dropWhile _ _).symm
    · rw [h1]
      exact fun x hx => head?_dropWhile_not _ _ x hx

/-- Witness for C5 at the spec's examples "#HashTag" (exception retained)
and "...word..." (both ends stripped). -/
theorem outer_punctuation_filter_spec_witness :
    strip_leading ['#', '@'] "#HashTag".data =
      '#' :: ("HashTag".data.dropWhile is_punctuation) ∧
    outer_punct_strip ['#', '@'] "#HashTag".data = "#HashTag".data ∧
    outer_punct_strip ['#', '@'] "...word...".data = "word".data :=
  ⟨((outer_punctuation_filter_spec ['#', '@'] "#HashTag".data).2.2.1 '#'
      "HashTag".data (by decide) (by decide)).1,
   by decide, by decide⟩

/-- C6: a token whose text becomes empty after outer-punctuation stripping
is still emitted into the output stream (with empty text at its original
stream slot, keeping its position) rather than dropped or suppressed: the
filter preserves the stream's length and rewrites text in place. -/
theorem outer_punctuation_empty_token_emitted (E : List Char) (ts : List Token)
    (i : Nat) (t : Token) (hi : ts[i]? = some t)
    (he : outer_punct_strip E t.text = []) :
    (outer_punctuation_filter E ts).length = ts.length ∧
    (outer_punctuation_filter E ts)[i]? = some ⟨[], t.position⟩ := by
  constructor
  · simp [outer_punctuation_filter]
  · simp [outer_punctuation_filter, List.getElem?_map, hi, he]

/-- Witness for C6: the punctuation-only token "..." is emitted as an
empty-text token, not dropped. -/
theorem outer_punctuation_empty_token_emitted_witness :
    (outer_punctuation_filter ['#', '@'] [⟨"...".data, 0⟩]).length = 1 ∧
    (outer_punctuation_filter ['#', '@'] [⟨"...".data, 0⟩])[0]? = some ⟨[], 0⟩ :=
  outer_punctuation_empty_token_emitted ['#', '@'] [⟨"...".data, 0⟩] 0
    ⟨"...".data, 0⟩ (by decide) (by decide)

/-- Counterexample for C9: with exception set {a} (an exception character
that is not punctuation), one pass over ".a.b" yields "a.b", while a second
pass yields "ab" — idempotence fails although the second pass removed only
the punctuation character '.', never an exception character, so the
claim's only allowed exceptional case does not apply. -/
theorem outer_punctuation_idempotent_counterexample :
    outer_punct_strip ['a'] (outer_punct_strip ['a'] ".a.b".data) ≠
      outer_punct_strip ['a'] ".a.b".data ∧
    outer_punct_strip ['a'] ".a.b".data = "a.b".data ∧
    outer_punct_strip ['a'] "a.b".data = "ab".data ∧
    (∀ c ∈ "a.b".data, c ∉ "ab".data → List.contains ['a'] c = false) :=
  ⟨by decide, by decide, by decide, by decide⟩

/-- C9 (amended): applying the outer-punctuation filter twice gives the
same result as applying it once, except when the once-filtered text begins
with an exception character immediately followed by a punctuation
character; in that case only, the second pass strips further (removing
punctuation after the retained exception character). -/
theorem outer_punctuation_conditional_idempotent (E : List Char) (s : List Char)
    (h : ∀ c c2, (outer_punct_strip E s).head? = some c → E.contains c = true →
      (outer_punct_strip E s).tail.head? = some c2 → is_punctuation c2 = false) :
    outer_punct_strip E (outer_punct_strip E s) = outer_punct_strip E s := by
  cases hr : outer_punct_strip E s with
  | nil => rfl
  | cons c u =>
    have hlast : ∀ x, (c :: u).getLast? = some x → is_punctuation x = false := by
      intro x hx
      apply strip_trailing_getLast (strip_leading E s) x
      rw [show strip_trailing (strip_leading E s) = outer_punct_strip E s from rfl, hr]
      exact hx
    cases hc : E.contains c with
    | true =>
      have hu : u.dropWhile is_punctuation = u := by
        apply dropWhile_of_head_not
        intro x hx
        exact h c x (by rw [hr]; rfl) hc (by rw [hr]; exact hx)
      show strip_trailing (strip_leading E (c :: u)) = c :: u
      have hl : strip_leading E (c :: u) = c :: u.dropWhile is_punctuation := by
        show (if E.contains c = true then c :: u.dropWhile is_punctuation
          else List.dropWhile is_punctuation (c :: u)) = c :: u.dropWhile is_punctuation
        rw [if_pos hc]
      rw [hl, hu]
      exact strip_trailing_of_getLast _ hlast
    | false =>
      have hcp : is_punctuation c = false := by
        cases s with
        | nil =>
          rw [show outer_punct_strip E [] = [] from rfl] at hr
          cases hr
        | cons c0 rest =>
          obtain ⟨removed, hdec, -⟩ := strip_trailing_decomp (strip_leading E (c0 :: rest))
          rw [show strip_trailing (strip_leading E (c0 :: rest)) =
            outer_punct_strip E (c0 :: rest) from rfl, hr] at hdec
          cases hc0 : E.contains c0 with
          | true =>
            have hl : strip_leading E (c0 :: rest) = c0 :: rest.dropWhile is_punctuation := by
              show (if E.contains c0 = true then c0 :: rest.dropWhile is_punctuation
                else List.dropWhile is_punctuation (c0 :: rest)) =
                  c0 :: rest.dropWhile is_punctuation
              rw [if_pos hc0]
            rw [hl] at hdec
            have hc0c : c0 = c := by
              have h3 := congrArg List.head? hdec
              simpa using h3
            rw [hc0c] at hc0
            rw [hc] at hc0
            cases hc0
          | false =>
            have hl : strip_leading E (c0 :: rest) =
                (c0 :: rest).dropWhile is_punctuation := by
              show (if E.contains c0 = true then c0 :: rest.dropWhile is_punctuation
                else List.dropWhile is_punctuation (c0 :: rest)) =
                  (c0 :: rest).dropWhile is_punctuation
              rw [if_neg (fun hcon => by rw [hc0] at hcon; cases hcon)]
            rw [hl] at hdec
            apply head?_dropWhile_not is_punctuation (c0 :: rest) c
            rw [hdec]
            rfl
      show strip_trailing (strip_leading E (c :: u)) = c :: u
      have hl : strip_leading E (c :: u) = (c :: u).dropWhile is_punctuation := by
        show (if E.contains c = true then c :: u.dropWhile is_punctuation
          else List.dropWhile is_punctuation (c :: u)) = (c :: u).dropWhile is_punctuation
        rw [if_neg (fun hcon => by rw [hc] at hcon; cases hcon)]
      rw [hl, List.dropWhile_cons, if_neg (by simp [hcp])]
      exact strip_trailing_of_getLast _ hlast

/-- Witness for C9 (amended) at "#HashTag!" with exceptions {#, @}: the
once-filtered text "#HashTag" starts with the exception '#' followed by the
non-punctuation 'H', so a second pass changes nothing. -/
theorem outer_punctuation_conditional_idempotent_witness :
    outer_punct_strip ['#', '@'] (outer_punct_strip ['#', '@'] "#HashTag!".data) =
      outer_punct_strip ['#', '@'] "#HashTag!".data := by
  apply outer_punctuation_conditional_idempotent
  intro c c2 h1 h2 h3
  rw [show outer_punct_strip ['#', '@'] "#HashTag!".data = "#HashTag".data
    from by decide] at h1 h3
  have e1 : some '#' = some c := h1
  have e2 : some 'H' = some c2 := h3
  cases e1
  cases e2
  decide

/-! ## Claims about the possessive-contraction filter -/

theorem concat_two_inv (w t : List Char) (a c : Char) (h : w = t ++ [a, c]) :
    w.getLast? = some c ∧ w.dropLast.getLast? = some a := by
  subst h
  constructor
  · rw [show t ++ [a, c] = (t ++ [a]) ++ [c] by simp]
    exact List.getLast?_concat _
  · rw [show t ++ [a, c] = (t ++ [a]) ++ [c] by simp, List.dropLast_concat]
    exact List.getLast?_concat _

/-- C4: the possessive-contraction filter removes a trailing suffix
consisting of an apostrophe-variant character immediately followed by s or
S at the absolute end of the token, or a bare trailing apostrophe variant
with nothing after it; only that single terminal suffix occurrence is
stripped (the prefix before it survives verbatim, so internal apostrophes
are untouched), and a token with no such suffix passes through
unchanged. -/
theorem possessive_filter_spec (w : List Char) :
    (∀ t a c, w = t ++ [a, c] → APOSTROPHES.contains a = true →
      (c = 's' ∨ c = 'S') → strip_possessive w = t) ∧
    (∀ t a, w = t ++ [a] → APOSTROPHES.contains a = true →
      strip_possessive w = t) ∧
    ((∀ a, w.getLast? = some a → APOSTROPHES.contains a = false) →
     (∀ t a c, w = t ++ [a, c] → APOSTROPHES.contains a = true →
        c ≠ 's' ∧ c ≠ 'S') →
      strip_possessive w = w) := by
  refine ⟨?_, ?_, ?_⟩
  · intro t a c hw ha hc
    subst hw
    have hcp : APOSTROPHES.contains c = false := by
      rcases hc with rfl | rfl <;> decide
    have hcs : (c == 's' || c == 'S') = true := by
      rcases hc with rfl | rfl <;> decide
    unfold strip_possessive
    rw [show (t ++ [a, c]).reverse = c :: a :: t.reverse by simp]
    show (if APOSTROPHES.contains c = true then (a :: t.reverse).reverse
      else if ((c == 's' || c == 'S') && APOSTROPHES.contains a) = true then
        t.reverse.reverse
      else t ++ [a, c]) = t
    rw [if_neg (fun hcon => by rw [hcp] at hcon; cases hcon),
      if_pos (by rw [hcs, ha]; rfl), List.reverse_reverse]
  · intro t a hw ha
    subst hw
    cases ht : t.reverse with
    | nil =>
      have ht0 : t = [] := by simpa using congrArg List.reverse ht
      subst ht0
      unfold strip_possessive
      rw [show (([] : List Char) ++ [a]).reverse = [a] by simp]
      show (if APOSTROPHES.contains a = true then ([] : List Char)
        else [] ++ [a]) = []
      rw [if_pos ha]
    | cons b bs =>
      unfold strip_possessive
      rw [show (t ++ [a]).reverse = a :: b :: bs by simp [ht]]
      show (if APOSTROPHES.contains a = true then (b :: bs).reverse
        else if ((a == 's' || a == 'S') && APOSTROPHES.contains b) = true then
          bs.reverse
        else t ++ [a]) = t
      rw [if_pos ha, ← ht, List.reverse_reverse]
  · intro h1 h2
    cases hw : w.reverse with
    | nil =>
      have h0 : w = [] := by simpa using congrArg List.reverse hw
      subst h0
      rfl
    | cons c rest =>
      cases rest with
      | nil =>
        have hc : APOSTROPHES.contains c = false := by
          apply h1
          rw [← List.head?_reverse, hw]
          rfl
        unfold strip_possessive
        rw [hw]
        show (if APOSTROPHES.contains c = true then ([] : List Char) else w) = w
        rw [if_neg (fun hcon => by rw [hc] at hcon; cases hcon)]
      | cons a rest2 =>
        have hwd : w = rest2.reverse ++ [a, c] := by
          have h3 := congrArg List.reverse hw
          rw [List.reverse_reverse] at h3
          simpa using h3
        have hc : APOSTROPHES.contains c = false := by
          apply h1
          rw [← List.head?_reverse, hw]
          rfl
        have hsc : ((c == 's' || c == 'S') && APOSTROPHES.contains a) = false := by
          cases hca : APOSTROPHES.contains a with
          | false => simp
          | true =>
            have h4 := h2 rest2.reverse a c hwd hca
            simp [h4.1, h4.2]
        unfold strip_possessive
        rw [hw]
        show (if APOSTROPHES.contains c = true then (a :: rest2).reverse
          else if ((c == 's' || c == 'S') && APOSTROPHES.contains a) = true then
            rest2.reverse
          else w) = w
        rw [if_neg (fun hcon => by rw [hc] at hcon; cases hcon),
          if_neg (fun hcon => by rw [hsc] at hcon; cases hcon)]

/-- Witness for C4 at the spec's examples "John's" (apostrophe + s
stripped), "Jones'" (bare trailing apostrophe stripped) and "can't"
(internal apostrophe, unchanged). -/
theorem possessive_filter_spec_witness :
    strip_possessive ("John".data ++ ['\u0027', 's']) = "John".data ∧
    strip_possessive ("Jones".data ++ ['\u0027']) = "Jones".data ∧
    strip_possessive ("can".data ++ ['\u0027', 't']) =
      "can".data ++ ['\u0027', 't'] :=
  ⟨(possessive_filter_spec _).1 "John".data '\u0027' 's' rfl (by decide)
      (Or.inl rfl),
   (possessive_filter_spec _).2.1 "Jones".data '\u0027' rfl (by decide),
   (possessive_filter_spec _).2.2
     (by
       intro x hx
       have e : some 't' = some x := hx
       cases e
       decide)
     (by
       intro t a c hcl hca
       have h5 := concat_two_inv ("can".data ++ ['\u0027', 't']) t a c hcl
       have e : some 't' = some c := h5.1
       cases e
       exact ⟨by decide, by decide⟩)⟩

/-! ## Claim about the third pipeline's chain order -/

/-- Counterexample for C1: the implemented third pipeline applies
punctuation stripping before stopword removal, so on "the!" it first
strips "!" and then removes "the" as a stopword, while a chain with
stopword removal inserted before punctuation stripping (as the claim
describes) keeps "the!" — which is not a stopword — and only then strips
it to "the".  The two chains therefore disagree on "the!". -/
theorem pipeline3_order_counterexample :
    tokens_of kapiche_analyzer_lower_with_stopwords "the!".data ≠
      tokens_of kapiche_analyzer_lower_with_stopwords_spec_order "the!".data ∧
    tokens_of kapiche_analyzer_lower_with_stopwords "the!".data = [] ∧
    tokens_of kapiche_analyzer_lower_with_stopwords_spec_order "the!".data =
      ["the".data] :=
  ⟨by decide, by decide, by decide⟩

/-- C1 (amended): in the third named pipeline the chain order is whitespace
tokenization, case folding, punctuation stripping, then stopword removal
(applied to the already folded and punctuation-stripped text, against the
expanded stopword list), with possessive stripping applied last — i.e.
stopword removal is inserted after punctuation stripping, not before. -/
theorem pipeline3_order_amended (text : List Char) :
    kapiche_analyzer_lower_with_stopwords text =
      (whitespace_tokenize text).map (fun t =>
        if get_stopwords_filter_en.contains
            (outer_punct_strip ['#', '@'] (t.text.map Char.toLower)) then
          ⟨strip_possessive
            (outer_punct_strip ['#', '@'] (t.text.map Char.toLower)), USIZE_MAX⟩
        else
          ⟨strip_possessive
            (outer_punct_strip ['#', '@'] (t.text.map Char.toLower)), t.position⟩) := by
  unfold kapiche_analyzer_lower_with_stopwords possessive_contraction_filter
    stop_word_filter outer_punctuation_filter lower_caser
  rw [List.map_map, List.map_map, List.map_map]
  apply List.map_congr_left
  intro t ht
  dsimp only [Function.comp]
  cases h : get_stopwords_filter_en.contains
      (outer_punct_strip ['#', '@'] (t.text.map Char.toLower)) with
  | true => simp
  | false => simp
